import Mathlib

/-!
Verification of the wave assignment and constraint-repair engine of
`src/migration_planning/scripts/plan_waves.py`.

The definitions below are a shallow embedding of that script: the mutable
`waves` dict becomes an explicit `Waves` value threaded through each rule,
Python `list.remove`/`append` become `List.erase`/`++ [·]` at an index,
the bounded `while changed` loops become fuel recursion with fuel 40, and
pandas lookups become list searches.  Floats (`BCP_score`, `weight`) are
modelled as `Rat`; the comparisons the script performs on them are exact.
-/

/-- `a.endswith(suf)` on Python strings, via the underlying character list
(`String.endsWith` itself does not reduce in the kernel). -/
def sfx (suf s : String) : Bool := suf.data.isSuffixOf s.data

/-- Environment tag; the script's `waves` dict always has exactly the keys
`'nonprod'` and `'prod'`, created in that order. -/
inductive Env where
  | nonprod
  | prod
deriving DecidableEq, Repr

/-- The env string used in f-strings such as `f'-{env}'`. -/
def Env.name : Env → String
  | .nonprod => "nonprod"
  | .prod => "prod"

/-- The dashed suffix `f'-{env}'`. -/
def Env.dashName : Env → String
  | .nonprod => "-nonprod"
  | .prod => "-prod"

/-- One row of `apps.csv` restricted to the columns the planner reads. -/
structure AppRow where
  app_instance_id : String
  base_app_id : String
  BCP_score : Rat
deriving DecidableEq, Repr

/-- One row of `dependencies.csv` restricted to the columns the planner reads. -/
structure DepRow where
  source : String
  target : String
  source_type : String
  weight : Rat
deriving DecidableEq, Repr

/-- The `waves` dict: per-env ordered list of waves, each an ordered id list. -/
structure Waves where
  nonprod : List (List String)
  prod : List (List String)
deriving DecidableEq, Repr

def Waves.get (w : Waves) : Env → List (List String)
  | .nonprod => w.nonprod
  | .prod => w.prod

def Waves.update (w : Waves) : Env → (List (List String) → List (List String)) → Waves
  | .nonprod, f => { w with nonprod := f w.nonprod }
  | .prod, f => { w with prod := f w.prod }

/-- In-place update `waves[env][i] = f(waves[env][i])`; out-of-range indices
(which would raise IndexError in the source) leave the list unchanged. -/
def modNth (f : List String → List String) : Nat → List (List String) → List (List String)
  | _, [] => []
  | 0, wv :: ws => f wv :: ws
  | n + 1, wv :: ws => wv :: modNth f n ws

/-- Entries of `wave_index_map` contributed by one env, in traversal order. -/
def wimEnv (e : Env) (wl : List (List String)) : List (String × Env × Nat) :=
  wl.enum.flatMap (fun p => p.2.map (fun a => (a, e, p.1)))

/-- `wave_index_map(waves)`: dict built by iterating `'nonprod'` then `'prod'`;
a later write to the same id overrides an earlier one. -/
def wim (w : Waves) : List (String × Env × Nat) :=
  wimEnv .nonprod w.nonprod ++ wimEnv .prod w.prod

/-- Dict lookup on the traversal entries: the last write wins. -/
def wimGet (m : List (String × Env × Nat)) (a : String) : Option (Env × Nat) :=
  (m.reverse.find? (fun p => p.1 == a)).map (fun p => p.2)

/-- `idxmap.get(x, (None, 999))[1]`. -/
def idxOf (m : List (String × Env × Nat)) (a : String) : Nat :=
  ((wimGet m a).map (fun p => p.2)).getD 999

/-- Python `min` over a sequence; callers guard that the list is nonempty. -/
def pyMin : List Nat → Nat
  | [] => 999
  | x :: xs => xs.foldl Nat.min x

/-- `apps_df.loc[a]['BCP_score']`: the score of the first row with this id, or
`none` when the id is absent (where the source raises KeyError; call sites
wrapped in try/except skip the entry instead). -/
def bcpOf (apps : List AppRow) (a : String) : Option Rat :=
  (apps.find? (fun r => r.app_instance_id == a)).map (fun r => r.BCP_score)

/-- Code-point lexicographic `≤` on character lists (Python string order). -/
def charsLe : List Char → List Char → Bool
  | [], _ => true
  | _ :: _, [] => false
  | a :: as, b :: bs =>
    if a.val < b.val then true
    else if b.val < a.val then false
    else charsLe as bs

def strLe (a b : String) : Bool := charsLe a.data b.data

def insStr (a : String) : List String → List String
  | [] => [a]
  | b :: l => if strLe a b then a :: b :: l else b :: insStr a l

/-- Sort a list of strings ascending (insertion sort). -/
def sortStr (l : List String) : List String := l.foldr insStr []

/-- `apps.groupby('base_app_id')['app_instance_id'].apply(list).to_dict()`:
keys in sorted order (pandas groupby sorts keys), members in row order. -/
def baseGroups (apps : List AppRow) : List (String × List String) :=
  (sortStr (apps.map (fun r => r.base_app_id)).dedup).map
    (fun b => (b, (apps.filter (fun r => r.base_app_id == b)).map
      (fun r => r.app_instance_id)))

/-- Rule 1 prod-side move (plan_waves.py lines 174-181 and 276-282): skip when
the id is absent from the stale index map or already at the target index;
otherwise remove it from the old prod wave when present, then append it to
`waves['prod'][tgt]` unconditionally and set the changed flag. -/
def moveProdTo (m : List (String × Env × Nat)) (tgt : Nat) (acc : Waves × Bool)
    (p : String) : Waves × Bool :=
  match wimGet m p with
  | none => acc
  | some (_, oi) =>
    if oi ≠ tgt then
      let w := acc.1
      let pr := modNth (fun l => l.erase p) oi w.prod
      ({ w with prod := modNth (fun l => l ++ [p]) tgt pr }, true)
    else acc

/-- Rule 1 nonprod-side move (plan_waves.py lines 185-191 and 266-272). -/
def moveNonprodTo (m : List (String × Env × Nat)) (tgt : Nat) (acc : Waves × Bool)
    (n : String) : Waves × Bool :=
  match wimGet m n with
  | none => acc
  | some (_, oi) =>
    if oi ≠ tgt then
      let w := acc.1
      let np := modNth (fun l => l.erase n) oi w.nonprod
      ({ w with nonprod := modNth (fun l => l ++ [n]) tgt np }, true)
    else acc

/-- Repair rule 1 for one base app (plan_waves.py lines 164-191).  Note the
source filters instances with the dash-less suffixes `'nonprod'`/`'prod'`
here, so every nonprod id also lands in the `prod` list. -/
def rule1Step (target : Nat) (m : List (String × Env × Nat)) (acc : Waves × Bool)
    (bi : String × List String) : Waves × Bool :=
  let np := bi.2.filter (fun i => sfx "nonprod" i)
  let pr := bi.2.filter (fun i => sfx "prod" i)
  if np ≠ [] ∧ pr ≠ [] then
    let npIdx := pyMin (np.map (idxOf m))
    let pIdx := pyMin (pr.map (idxOf m))
    if pIdx ≤ npIdx then
      if npIdx < target - 1 then pr.foldl (moveProdTo m (npIdx + 1)) acc
      else np.foldl (moveNonprodTo m (npIdx - 1)) acc
    else acc
  else acc

/-- Repair rules 3 and 4 for one dependency row (plan_waves.py lines 194-220),
using the index map computed at the start of the pass. -/
def rule34Step (apps : List AppRow) (target : Nat) (m : List (String × Env × Nat))
    (acc : Waves × Bool) (r : DepRow) : Waves × Bool :=
  match wimGet m r.source, wimGet m r.target with
  | some (sEnv, sIdx), some (tEnv, tIdx) =>
    if sEnv ≠ tEnv then acc
    else
      match bcpOf apps r.source with
      | none => acc
      | some bcp =>
        let acc :=
          if 8 ≤ bcp ∧ sIdx ≠ tIdx then
            let w := acc.1.update tEnv (modNth (fun l => l.erase r.target) tIdx)
            if r.target ∈ (w.get sEnv).getD sIdx [] then (w, acc.2)
            else (w.update sEnv (modNth (fun l => l ++ [r.target]) sIdx), true)
          else acc
        if 7 ≤ bcp ∧ 7 < r.weight ∧ ¬(tIdx = sIdx ∨ (tIdx : Int) = (sIdx : Int) - 1) then
          let preferred := if target ≤ sIdx then target - 1 else sIdx
          let w := acc.1.update tEnv (modNth (fun l => l.erase r.target) tIdx)
          if r.target ∈ (w.get sEnv).getD preferred [] then (w, acc.2)
          else (w.update sEnv (modNth (fun l => l ++ [r.target]) preferred), true)
        else acc
  | _, _ => acc

/-- The "middle" wave index of rule 2:
`(math.floor(0.25*N) + (math.ceil(0.75*N) - 1)) // 2`. -/
def middleIdx (N : Nat) : Nat := (N / 4 + ((3 * N + 3) / 4 - 1)) / 2

/-- Rule 2 step for one app of the snapshot of wave `i` (lines 229-237): a
BCP ≥ 9 app found while scanning wave 0 or wave N-1 is removed from that wave
and appended to the middle wave; a failed lookup or a failed remove is caught
by the source's try/except and skipped. -/
def mcStep (apps : List AppRow) (N i middle : Nat) (acc : List (List String) × Bool)
    (a : String) : List (List String) × Bool :=
  match bcpOf apps a with
  | none => acc
  | some q =>
    if 9 ≤ q ∧ (i = 0 ∨ i = N - 1) then
      if a ∈ acc.1.getD i [] then
        (modNth (fun l => l ++ [a]) middle (modNth (fun l => l.erase a) i acc.1), true)
      else acc
    else acc

/-- Rule 2 processing of wave `i`: iterate over the snapshot `list(waves[env][i])`
taken when the loop reaches `i`, mutating the live state. -/
def mcWave (apps : List AppRow) (N middle : Nat) (acc : List (List String) × Bool)
    (i : Nat) : List (List String) × Bool :=
  (acc.1.getD i []).foldl (mcStep apps N i middle) acc

/-- Repair rule 2 for one env (plan_waves.py lines 222-237). -/
def rule2Env (apps : List AppRow) (wl : List (List String)) (ch : Bool) :
    List (List String) × Bool :=
  let N := wl.length
  if N ≤ 2 then (wl, ch)
  else (List.range N).foldl (mcWave apps N (middleIdx N)) (wl, ch)

/-- Pad an env's wave list with trailing empty waves up to `target` slots. -/
def padTo (target : Nat) (wl : List (List String)) : List (List String)  :=
  wl ++ List.replicate (target - wl.length) []

/-- `while len(waves[env]) > target: extra = waves[env].pop();
waves[env][target-1].extend(extra)` (lines 244-246), with fuel. -/
def truncMerge (target : Nat) : Nat → List (List String) → List (List String)
  | 0, wl => wl
  | fuel + 1, wl =>
    if target < wl.length then
      truncMerge target fuel (modNth (fun l => l ++ wl.getLastD []) (target - 1) wl.dropLast)
    else wl

/-- Structural pass of the repair loop (lines 238-246): keep exactly `target`
wave slots per env, merging trailing extras into the last allowed wave. -/
def structuralFixEnv (target : Nat) (wl : List (List String)) : List (List String) :=
  truncMerge target (padTo target wl).length (padTo target wl)

def structuralFix (target : Nat) (w : Waves) : Waves :=
  ⟨structuralFixEnv target w.nonprod, structuralFixEnv target w.prod⟩

/-- One pass of the bounded repair loop (plan_waves.py lines 159-246): the
index map is computed once per pass and is stale for rules 1, 3 and 4. -/
def repairPass (apps : List AppRow) (deps : List DepRow) (target : Nat) (w : Waves) :
    Waves × Bool :=
  let m := wim w
  let acc := (baseGroups apps).foldl (rule1Step target m) (w, false)
  let acc := (deps.filter (fun r => r.source_type == "application")).foldl
    (rule34Step apps target m) acc
  let r1 := rule2Env apps acc.1.nonprod acc.2
  let r2 := rule2Env apps acc.1.prod r1.2
  (structuralFix target ⟨r1.1, r2.1⟩, r2.2)

/-- `while changed and iters < 40`, with `changed` initially true. -/
def repairLoop (apps : List AppRow) (deps : List DepRow) (target : Nat) :
    Nat → Waves → Waves
  | 0, w => w
  | fuel + 1, w =>
    let r := repairPass apps deps target w
    if r.2 then repairLoop apps deps target fuel r.1 else r.1

/-- One base-app step of `fix_nonprod_prod_order` (lines 256-282); the same
dash-less suffix filters as rule 1. -/
def fixStep (target : Nat) (m : List (String × Env × Nat)) (acc : Waves × Bool)
    (bi : String × List String) : Waves × Bool :=
  let np := bi.2.filter (fun i => sfx "nonprod" i)
  let pr := bi.2.filter (fun i => sfx "prod" i)
  if np ≠ [] ∧ pr ≠ [] then
    let npIdx := pyMin (np.map (idxOf m))
    let pIdx := pyMin (pr.map (idxOf m))
    if pIdx ≤ npIdx then
      if 0 < npIdx then np.foldl (moveNonprodTo m (npIdx - 1)) acc
      else if pIdx < target - 1 then pr.foldl (moveProdTo m (pIdx + 1)) acc
      else acc
    else acc
  else acc

def fixPass (apps : List AppRow) (target : Nat) (w : Waves) : Waves × Bool :=
  (baseGroups apps).foldl (fixStep target (wim w)) (w, false)

/-- `fix_nonprod_prod_order` (plan_waves.py lines 248-283). -/
def fixLoop (apps : List AppRow) (target : Nat) : Nat → Waves → Waves
  | 0, w => w
  | fuel + 1, w =>
    let r := fixPass apps target w
    if r.2 then fixLoop apps target fuel r.1 else r.1

/-- Phase-1 filter of `sanitize_waves`: keep an id only when its suffix matches
the wave's env and it has not been claimed before; thread the claimed set. -/
def keepStep (ds : String) (acc : List String × List String) (a : String) :
    List String × List String :=
  if sfx ds a ∧ a ∉ acc.2 then (acc.1 ++ [a], acc.2 ++ [a]) else acc

def rebuildWaves (ds : String) (wl : List (List String)) (seen : List String) :
    List (List String) × List String :=
  wl.foldl (fun acc wv =>
    let r := wv.foldl (keepStep ds) ([], acc.2)
    (acc.1 ++ [r.1], r.2)) ([], seen)

/-- Phase 2 of `sanitize_waves` (lines 310-319): distribute the ids never
claimed by phase 1 round-robin over the env's waves. -/
def distributeMissing (apps : List AppRow) (e : Env) (wl : List (List String))
    (seen : List String) (target : Nat) : List (List String) × List String :=
  let allEnv := (apps.map (fun r => r.app_instance_id)).filter (fun a => sfx e.dashName a)
  let missing := allEnv.filter (fun a => a ∉ seen)
  let wl := if wl.length = 0 then List.replicate target [] else wl
  let r := missing.foldl
    (fun (acc : (List (List String) × List String) × Nat) a =>
      ((modNth (fun l => l ++ [a]) (acc.2 % acc.1.1.length) acc.1.1,
        acc.1.2 ++ [a]), acc.2 + 1))
    ((wl, seen), 0)
  r.1

/-- `sanitize_waves` (plan_waves.py lines 288-320): phase 1 over both envs in
order, then phase 2 over both envs, with one shared `seen` set. -/
def sanitize_waves (apps : List AppRow) (target : Nat) (w : Waves) : Waves :=
  let rn := rebuildWaves "-nonprod" (padTo target w.nonprod) []
  let rp := rebuildWaves "-prod" (padTo target w.prod) rn.2
  let dn := distributeMissing apps .nonprod rn.1 rp.2 target
  let dp := distributeMissing apps .prod rp.1 dn.2 target
  ⟨dn.1, dp.1⟩

/-- The ids of the application instances belonging to an env, in row order:
`[a for a in apps['app_instance_id'].tolist() if a.endswith(f'-{env}')]`. -/
def envApps (apps : List AppRow) (e : Env) : List String :=
  (apps.map (fun r => r.app_instance_id)).filter (fun a => sfx e.dashName a)

/-- The sort key of the Equalizer: `apps_df.loc[x]['BCP_score']`. -/
def bcpKey (apps : List AppRow) (a : String) : Rat := (bcpOf apps a).getD 0

/-- Stable insertion of `a` before the first element whose key is ≤ its own:
later elements with an equal key stay behind `a`. -/
def insDesc (k : String → Rat) (a : String) : List String → List String
  | [] => [a]
  | b :: l => if k b ≤ k a then a :: b :: l else b :: insDesc k a l

/-- Stable descending sort by key, modelling Python's
`sorted(xs, key=k, reverse=True)` (a stable sort). -/
def sortDesc (k : String → Rat) (l : List String) : List String :=
  l.foldr (insDesc k) []

/-- `[base + 1 if i < rem else base for i in range(target_waves)]`. -/
def sizesList (total target : Nat) : List Nat :=
  (List.range target).map
    (fun i => if i < total % target then total / target + 1 else total / target)

/-- Cut consecutive slices of the given sizes: `app_list[idx : idx + sz]`. -/
def takeSlices : List Nat → List String → List (List String)
  | [], _ => []
  | s :: rest, l => l.take s :: takeSlices rest (l.drop s)

/-- `equalize_waves` body for one env (plan_waves.py lines 326-342). -/
def equalizeEnv (apps : List AppRow) (target : Nat) (e : Env) : List (List String) :=
  let srt := sortDesc (bcpKey apps) (envApps apps e)
  let total := (envApps apps e).length
  if total = 0 then List.replicate target []
  else takeSlices (sizesList total target) srt

/-- `equalize_waves` (plan_waves.py lines 325-343): both envs are rebuilt
solely from the application table; the incoming assignment is discarded. -/
def equalize_waves (apps : List AppRow) (target : Nat) (_w : Waves) : Waves :=
  ⟨equalizeEnv apps target .nonprod, equalizeEnv apps target .prod⟩

/-- `enforce_constraints` (plan_waves.py lines 152-346): bounded repair loop,
secondary sequencing correction, sanitize, then the final equalize pass. -/
def enforce_constraints (apps : List AppRow) (deps : List DepRow) (w : Waves)
    (target : Nat := 8) : Waves :=
  equalize_waves apps target
    (sanitize_waves apps target
      (fixLoop apps target 40
        (repairLoop apps deps target 40 w)))

/-- One per-wave statistics record of the Validator. -/
structure Stat where
  algorithm : String
  env : Env
  wave_index : Nat
  num_apps : Nat
deriving DecidableEq, Repr

/-- The typed violation records the Validator emits, one constructor per issue
kind, with the fields of the corresponding Python dicts. -/
inductive Issue where
  | wave_count_mismatch (algorithm : String) (env : Env) (expected actual : Nat)
  | wave_size_out_of_bounds (algorithm : String) (env : Env) (wave_index num_apps : Nat)
  | env_exclusivity_violation (algorithm : String) (env : Env) (wave_index : Nat)
      (app : String)
  | nonprod_not_before_prod (algorithm base_app : String) (nonprod_wave prod_wave : Nat)
  | nonprod_production_gap_too_small (algorithm base_app : String) (gap : Int)
  | cross_env_dependency (algorithm source target : String)
  | cross_wave_high_bcp (algorithm source target : String) (s_idx t_idx : Nat)
  | critical_not_co_migrate (algorithm source target : String) (weight : Rat)
      (s_idx t_idx : Nat)
  | mission_critical_edge_wave (algorithm : String) (env : Env) (wave_index : Nat)
      (app : String)
deriving DecidableEq, Repr

/-- Sequencing check of the Validator for one base app (lines 95-104); unlike
the repair rules, the Validator filters with the dashed suffixes. -/
def seqCheck (m : List (String × Env × Nat)) (name : String)
    (bi : String × List String) : List Issue :=
  let np := bi.2.filter (fun i => sfx "-nonprod" i)
  let pr := bi.2.filter (fun i => sfx "-prod" i)
  if np ≠ [] ∧ pr ≠ [] then
    let npIdx := pyMin (np.map (idxOf m))
    let pIdx := pyMin (pr.map (idxOf m))
    (if pIdx ≤ npIdx then [.nonprod_not_before_prod name bi.1 npIdx pIdx] else []) ++
    (if (pIdx : Int) - (npIdx : Int) < 1 then
      [.nonprod_production_gap_too_small name bi.1 ((pIdx : Int) - (npIdx : Int))]
     else [])
  else []

/-- Dependency checks of the Validator for one dependency row (lines 107-122),
as the list of issues the row appends: an edge whose source or target is
absent from the index map appends nothing. -/
def depCheckRow (apps : List AppRow) (m : List (String × Env × Nat)) (name : String)
    (r : DepRow) : List Issue :=
  match wimGet m r.source, wimGet m r.target with
  | some (sEnv, sIdx), some (tEnv, tIdx) =>
    match bcpOf apps r.source with
    | none => []
    | some bcp =>
      if sEnv ≠ tEnv then [.cross_env_dependency name r.source r.target]
      else
        (if 8 ≤ bcp ∧ sIdx ≠ tIdx then
          [.cross_wave_high_bcp name r.source r.target sIdx tIdx]
         else []) ++
        (if 7 ≤ bcp ∧ 7 < r.weight ∧ ¬(tIdx = sIdx ∨ (tIdx : Int) = (sIdx : Int) - 1) then
          [.critical_not_co_migrate name r.source r.target r.weight sIdx tIdx]
         else [])
  | _, _ => []

/-- Mission-critical check (lines 124-129) for one env. -/
def missionCheckEnv (apps : List AppRow) (name : String) (e : Env)
    (wl : List (List String)) : List Issue :=
  wl.enum.flatMap (fun p =>
    p.2.filterMap (fun a =>
      match bcpOf apps a with
      | none => none
      | some q =>
        if 9 ≤ q ∧ (p.1 = 0 ∨ p.1 = wl.length - 1) then
          some (.mission_critical_edge_wave name e p.1 a)
        else none))

/-- Wave-count check of the Validator (lines 78-80). -/
def countIssuesOf (w : Waves) (name : String) : List Issue :=
  [Env.nonprod, Env.prod].filterMap (fun e =>
    if (w.get e).length ≠ 8 then
      some (.wave_count_mismatch name e 8 (w.get e).length)
    else none)

/-- Per-wave statistics of the Validator (line 84). -/
def statsOf (w : Waves) (name : String) : List Stat :=
  [Env.nonprod, Env.prod].flatMap (fun e =>
    (w.get e).enum.map (fun p => Stat.mk name e p.1 p.2.length))

/-- Wave-size check of the Validator (lines 85-86), preferred range [15, 25]. -/
def sizeIssuesOf (w : Waves) (name : String) : List Issue :=
  [Env.nonprod, Env.prod].flatMap (fun e =>
    (w.get e).enum.filterMap (fun p =>
      if p.2.length < 15 ∨ 25 < p.2.length then
        some (.wave_size_out_of_bounds name e p.1 p.2.length)
      else none))

/-- Environment-exclusivity check of the Validator (lines 88-92). -/
def exclIssuesOf (w : Waves) (name : String) : List Issue :=
  [Env.nonprod, Env.prod].flatMap (fun e =>
    (w.get e).enum.flatMap (fun p =>
      p.2.filterMap (fun a =>
        if ¬ sfx e.dashName a then
          some (.env_exclusivity_violation name e p.1 a)
        else none)))

/-- Sequencing checks of the Validator over all base apps (lines 94-104). -/
def seqIssuesOf (apps : List AppRow) (m : List (String × Env × Nat))
    (name : String) : List Issue :=
  (baseGroups apps).flatMap (seqCheck m name)

/-- Dependency checks of the Validator over all rows (lines 106-122). -/
def depIssuesOf (apps : List AppRow) (deps : List DepRow)
    (m : List (String × Env × Nat)) (name : String) : List Issue :=
  (deps.filter (fun r => r.source_type == "application")).flatMap
    (depCheckRow apps m name)

/-- Mission-critical checks of the Validator over both envs (lines 124-129). -/
def missionIssuesOf (apps : List AppRow) (name : String) (w : Waves) : List Issue :=
  [Env.nonprod, Env.prod].flatMap (fun e => missionCheckEnv apps name e (w.get e))

/-- `validate_waves` (plan_waves.py lines 72-130): a pure inspection of the
assignment; issues are accumulated check after check, stats independently. -/
def validate_waves (apps : List AppRow) (deps : List DepRow) (w : Waves)
    (name : String) : List Issue × List Stat :=
  (countIssuesOf w name ++ sizeIssuesOf w name ++ exclIssuesOf w name
      ++ seqIssuesOf apps (wim w) name ++ depIssuesOf apps deps (wim w) name
      ++ missionIssuesOf apps name w,
   statsOf w name)

/-! ### Basic lemmas about the embedding's list helpers -/

theorem modNth_length (f : List String → List String) :
    ∀ (n : Nat) (l : List (List String)), (modNth f n l).length = l.length := by
  intro n l
  induction l generalizing n with
  | nil => cases n <;> rfl
  | cons w ws ih => cases n with
    | zero => rfl
    | succ m => simpa [modNth] using ih m

theorem getD_modNth_ne (f : List String → List String) {m n : Nat} (h : m ≠ n)
    (l : List (List String)) : (modNth f n l).getD m [] = l.getD m [] := by
  induction l generalizing m n with
  | nil => cases n <;> rfl
  | cons w ws ih =>
    cases n with
    | zero =>
      cases m with
      | zero => exact absurd rfl h
      | succ m' => rfl
    | succ n' =>
      cases m with
      | zero => rfl
      | succ m' =>
        simp only [modNth, List.getD_cons_succ]
        exact ih (fun hc => h (by omega))

theorem getD_modNth_self (f : List String → List String) {n : Nat}
    {l : List (List String)} (h : n < l.length) :
    (modNth f n l).getD n [] = f (l.getD n []) := by
  induction l generalizing n with
  | nil => simp at h
  | cons w ws ih =>
    cases n with
    | zero => rfl
    | succ n' =>
      simp only [modNth, List.getD_cons_succ]
      exact ih (by simpa using h)

theorem takeSlices_length (sizes : List Nat) (l : List String) :
    (takeSlices sizes l).length = sizes.length := by
  induction sizes generalizing l with
  | nil => rfl
  | cons s rest ih => simp [takeSlices, ih]

theorem takeSlices_map_length (sizes : List Nat) (l : List String)
    (h : sizes.sum ≤ l.length) :
    (takeSlices sizes l).map List.length = sizes := by
  induction sizes generalizing l with
  | nil => rfl
  | cons s rest ih =>
    have hs : s ≤ l.length := by
      have := h
      simp only [List.sum_cons] at this
      omega
    have hrest : rest.sum ≤ (l.drop s).length := by
      simp only [List.length_drop]
      simp only [List.sum_cons] at h
      omega
    simp [takeSlices, ih _ hrest, List.length_take, Nat.min_eq_left hs]

theorem takeSlices_flatten (sizes : List Nat) (l : List String)
    (h : sizes.sum = l.length) :
    (takeSlices sizes l).flatten = l := by
  induction sizes generalizing l with
  | nil =>
    simp only [List.sum_nil] at h
    simp [takeSlices, (List.length_eq_zero.mp h.symm)]
  | cons s rest ih =>
    have hs : s ≤ l.length := by
      simp only [List.sum_cons] at h
      omega
    have hrest : rest.sum = (l.drop s).length := by
      simp only [List.length_drop]
      simp only [List.sum_cons] at h
      omega
    simp [takeSlices, ih _ hrest, List.take_append_drop]

theorem sizesList_length (total target : Nat) : (sizesList total target).length = target := by
  simp [sizesList]

theorem sum_range_if (r b : Nat) :
    ∀ n : Nat, (((List.range n).map (fun i => if i < r then b + 1 else b)).sum)
      = n * b + min r n := by
  intro n
  induction n with
  | zero => simp
  | succ m ih =>
    rw [List.range_succ, List.map_append, List.sum_append, ih]
    by_cases hm : m < r
    · simp only [List.map_cons, List.map_nil, List.sum_cons, List.sum_nil, if_pos hm]
      rw [Nat.succ_mul]
      omega
    · simp only [List.map_cons, List.map_nil, List.sum_cons, List.sum_nil, if_neg hm]
      rw [Nat.succ_mul]
      omega

theorem sizesList_sum (total target : Nat) (h : 0 < target) :
    (sizesList total target).sum = total := by
  have hmod : total % target < target := Nat.mod_lt _ h
  have hdm := Nat.div_add_mod total target
  rw [sizesList, sum_range_if]
  omega

theorem range_map_if_eq_replicate (x y : Nat) :
    ∀ (n r : Nat), r ≤ n →
      (List.range n).map (fun i => if i < r then x else y)
        = List.replicate r x ++ List.replicate (n - r) y := by
  have all_lt : ∀ (n r : Nat), n ≤ r →
      (List.range n).map (fun i => if i < r then x else y) = List.replicate n x := by
    intro n
    induction n with
    | zero => intro r _; rfl
    | succ m ih =>
      intro r hr
      rw [List.range_succ, List.map_append, ih r (by omega)]
      simp only [List.map_cons, List.map_nil, if_pos (by omega : m < r)]
      rw [← List.replicate_succ']
  intro n
  induction n with
  | zero => intro r hr; simp_all
  | succ m ih =>
    intro r hr
    by_cases hrm : r ≤ m
    · rw [List.range_succ, List.map_append, ih r hrm]
      simp only [List.map_cons, List.map_nil, if_neg (by omega : ¬ m < r)]
      rw [List.append_assoc, ← List.replicate_succ']
      congr 2
      omega
    · have : r = m + 1 := by omega
      subst this
      rw [all_lt (m + 1) (m + 1) le_rfl]
      simp

/-! ### Properties of the stable descending sort -/

theorem insDesc_perm (k : String → Rat) (a : String) :
    ∀ l : List String, (insDesc k a l).Perm (a :: l) := by
  intro l
  induction l with
  | nil => exact List.Perm.refl _
  | cons b l ih =>
    by_cases h : k b ≤ k a
    · simp [insDesc, h]
    · simp only [insDesc, if_neg h]
      exact (ih.cons b).trans (List.Perm.swap a b l)

theorem sortDesc_perm (k : String → Rat) (l : List String) :
    (sortDesc k l).Perm l := by
  induction l with
  | nil => exact List.Perm.refl _
  | cons a l ih =>
    exact (insDesc_perm k a (sortDesc k l)).trans (ih.cons a)

theorem mem_insDesc {k : String → Rat} {a x : String} {l : List String} :
    x ∈ insDesc k a l ↔ x = a ∨ x ∈ l := by
  rw [(insDesc_perm k a l).mem_iff]
  simp

theorem insDesc_sorted {k : String → Rat} {a : String} {l : List String}
    (h : l.Pairwise (fun x y => k y ≤ k x)) :
    (insDesc k a l).Pairwise (fun x y => k y ≤ k x) := by
  induction l with
  | nil => simp [insDesc]
  | cons b l ih =>
    by_cases hba : k b ≤ k a
    · simp only [insDesc, if_pos hba]
      refine List.Pairwise.cons ?_ h
      intro y hy
      rcases List.mem_cons.mp hy with rfl | hy
      · exact hba
      · exact le_trans (List.rel_of_pairwise_cons h hy) hba
    · simp only [insDesc, if_neg hba]
      refine List.Pairwise.cons ?_ (ih h.of_cons)
      intro y hy
      rcases mem_insDesc.mp hy with rfl | hy
      · exact le_of_lt (lt_of_not_le hba)
      · exact List.rel_of_pairwise_cons h hy

theorem sortDesc_sorted (k : String → Rat) (l : List String) :
    (sortDesc k l).Pairwise (fun x y => k y ≤ k x) := by
  induction l with
  | nil => simp [sortDesc]
  | cons a l ih => exact insDesc_sorted ih

theorem insDesc_filter_key (k : String → Rat) (q : Rat) (a : String) :
    ∀ l : List String,
      (insDesc k a l).filter (fun x => decide (k x = q))
        = ((a :: l).filter (fun x => decide (k x = q))) := by
  intro l
  induction l with
  | nil => rfl
  | cons b l ih =>
    by_cases hba : k b ≤ k a
    · simp [insDesc, hba]
    · simp only [insDesc, if_neg hba]
      rw [List.filter_cons, List.filter_cons, List.filter_cons, ih, List.filter_cons]
      by_cases hb : k b = q
      · have ha : ¬ k a = q := fun hc => hba (by rw [hb, hc])
        simp [hb, ha]
      · simp [hb]

theorem sortDesc_filter_key (k : String → Rat) (q : Rat) (l : List String) :
    (sortDesc k l).filter (fun x => decide (k x = q))
      = l.filter (fun x => decide (k x = q)) := by
  induction l with
  | nil => rfl
  | cons a l ih =>
    show (insDesc k a (sortDesc k l)).filter _ = _
    rw [insDesc_filter_key, List.filter_cons, ih, List.filter_cons]

/-! ### The equalizer rebuilds each env's waves from the app table alone -/

theorem equalizeEnv_map_length (apps : List AppRow) (e : Env) :
    (equalizeEnv apps 8 e).map List.length = sizesList (envApps apps e).length 8 := by
  unfold equalizeEnv
  by_cases h : (envApps apps e).length = 0
  · rw [h, if_pos rfl]
    have : sizesList 0 8 = List.replicate 8 0 := by decide
    rw [this]
    simp [List.map_replicate]
  · rw [if_neg h]
    apply takeSlices_map_length
    rw [sizesList_sum _ _ (by omega), (sortDesc_perm _ _).length_eq]

theorem equalizeEnv_length (apps : List AppRow) (e : Env) :
    (equalizeEnv apps 8 e).length = 8 := by
  have h := congrArg List.length (equalizeEnv_map_length apps e)
  simpa [sizesList_length] using h

theorem equalizeEnv_flatten (apps : List AppRow) (e : Env) :
    (equalizeEnv apps 8 e).flatten = sortDesc (bcpKey apps) (envApps apps e) := by
  unfold equalizeEnv
  by_cases h : (envApps apps e).length = 0
  · rw [h, if_pos rfl]
    have he : envApps apps e = [] := List.length_eq_zero.mp h
    rw [he]
    rfl
  · rw [if_neg h]
    apply takeSlices_flatten
    rw [sizesList_sum _ _ (by omega), (sortDesc_perm _ _).length_eq]

theorem enforce_get (apps : List AppRow) (deps : List DepRow) (w : Waves) (e : Env) :
    (enforce_constraints apps deps w).get e = equalizeEnv apps 8 e := by
  cases e <;> rfl

/-! ### Concrete scenario fixtures -/

/-- 40 application instances in one environment, no dependencies. -/
def appsForty : List AppRow :=
  (List.range 40).map (fun i => ⟨"a" ++ toString i ++ "-prod", "a" ++ toString i, 5⟩)

/-- 42 application instances in one environment, no dependencies. -/
def appsFortyTwo : List AppRow :=
  (List.range 42).map (fun i => ⟨"a" ++ toString i ++ "-prod", "a" ++ toString i, 5⟩)

/-- A three-app table with one mission-critical (BCP 9) instance. -/
def appsSmall : List AppRow :=
  [⟨"b1-prod", "b1", 9⟩, ⟨"b2-prod", "b2", 5⟩, ⟨"b3-prod", "b3", 7⟩]

/-! ### Claim theorems -/

/-- C1: for every environment, the Equalizer's final pass sorts that env's
application instances by descending BCP score with ties broken by original
ordering (a stable sort: the output is a permutation, pairwise descending,
and preserves the original order within every key class), and slices them
into exactly `target_waves` contiguous groups sized by the largest-remainder
method: `total mod 8` waves of size `total/8 + 1` and the rest of size
`total/8`; 40 instances over 8 waves yield sizes `[5,5,5,5,5,5,5,5]` and 42
instances yield `[6,6,5,5,5,5,5,5]`. -/
theorem equalizer_largest_remainder_and_stable_sort :
    (∀ (apps : List AppRow) (deps : List DepRow) (w : Waves) (e : Env),
      ((enforce_constraints apps deps w).get e).map List.length
          = sizesList (envApps apps e).length 8
      ∧ ((enforce_constraints apps deps w).get e).flatten.Perm (envApps apps e)
      ∧ ((enforce_constraints apps deps w).get e).flatten.Pairwise
          (fun a b => bcpKey apps b ≤ bcpKey apps a)
      ∧ ∀ q : Rat,
          ((enforce_constraints apps deps w).get e).flatten.filter
              (fun a => decide (bcpKey apps a = q))
            = (envApps apps e).filter (fun a => decide (bcpKey apps a = q)))
    ∧ (∀ total : Nat, 0 < total % 8 →
        (sizesList total 8).count (total / 8 + 1) = total % 8
        ∧ (sizesList total 8).count (total / 8) = 8 - total % 8)
    ∧ ((enforce_constraints appsForty [] ⟨[], []⟩).get .prod).map List.length
        = [5, 5, 5, 5, 5, 5, 5, 5]
    ∧ ((enforce_constraints appsFortyTwo [] ⟨[], []⟩).get .prod).map List.length
        = [6, 6, 5, 5, 5, 5, 5, 5] := by
  have main : ∀ (apps : List AppRow) (deps : List DepRow) (w : Waves) (e : Env),
      ((enforce_constraints apps deps w).get e).map List.length
        = sizesList (envApps apps e).length 8
      ∧ ((enforce_constraints apps deps w).get e).flatten.Perm (envApps apps e)
      ∧ ((enforce_constraints apps deps w).get e).flatten.Pairwise
          (fun a b => bcpKey apps b ≤ bcpKey apps a)
      ∧ ∀ q : Rat,
          ((enforce_constraints apps deps w).get e).flatten.filter
              (fun a => decide (bcpKey apps a = q))
            = (envApps apps e).filter (fun a => decide (bcpKey apps a = q)) := by
    intro apps deps w e
    refine ⟨?_, ?_, ?_, ?_⟩
    · rw [enforce_get]; exact equalizeEnv_map_length apps e
    · rw [enforce_get, equalizeEnv_flatten]; exact sortDesc_perm _ _
    · rw [enforce_get, equalizeEnv_flatten]; exact sortDesc_sorted _ _
    · intro q
      rw [enforce_get, equalizeEnv_flatten]
      exact sortDesc_filter_key _ q _
  refine ⟨main, ?_, ?_, ?_⟩
  · intro total hr
    have h8 : total % 8 < 8 := Nat.mod_lt _ (by norm_num)
    have hrepl := range_map_if_eq_replicate (total / 8 + 1) (total / 8) 8 (total % 8)
      (by omega)
    rw [sizesList, hrepl]
    constructor
    · simp only [List.count_append, List.count_replicate]
      have h1 : ((total / 8 + 1 : Nat) == total / 8 + 1) = true := by simp
      have h2 : ((total / 8 : Nat) == total / 8 + 1) = false := by
        simp only [beq_eq_false_iff_ne, ne_eq]
        omega
      rw [h1, h2]
      simp
    · simp only [List.count_append, List.count_replicate]
      have h1 : ((total / 8 + 1 : Nat) == total / 8) = false := by
        simp only [beq_eq_false_iff_ne, ne_eq]
        omega
      have h2 : ((total / 8 : Nat) == total / 8) = true := by simp
      rw [h1, h2]
      simp
  · rw [(main appsForty [] ⟨[], []⟩ .prod).1]
    have : (envApps appsForty Env.prod).length = 40 := by decide
    rw [this]
    decide
  · rw [(main appsFortyTwo [] ⟨[], []⟩ .prod).1]
    have : (envApps appsFortyTwo Env.prod).length = 42 := by decide
    rw [this]
    decide

/-- Witness for C1: the largest-remainder count statement at `total = 42`. -/
theorem equalizer_largest_remainder_and_stable_sort_witness :
    (sizesList 42 8).count (42 / 8 + 1) = 42 % 8
    ∧ (sizesList 42 8).count (42 / 8) = 8 - 42 % 8 :=
  equalizer_largest_remainder_and_stable_sort.2.1 42 (by decide)

/-- C2: after the full pipeline, for every environment, every application
instance id carrying that environment's suffix appears in exactly one wave
(total count one across the env's waves, assuming distinct ids in the app
table), and no wave for environment E contains an id not suffixed with E. -/
theorem exactly_once_assignment (apps : List AppRow) (deps : List DepRow) (w : Waves)
    (hnd : (apps.map (fun r => r.app_instance_id)).Nodup) (e : Env) :
    (∀ a ∈ envApps apps e,
      (((enforce_constraints apps deps w).get e).map (List.count a)).sum = 1)
    ∧ ∀ wv ∈ (enforce_constraints apps deps w).get e, ∀ x ∈ wv,
        sfx e.dashName x = true := by
  constructor
  · intro a ha
    rw [← List.count_flatten, enforce_get, equalizeEnv_flatten,
      (sortDesc_perm _ _).count_eq]
    exact List.count_eq_one_of_mem (hnd.filter _) ha
  · intro wv hwv x hx
    have hfl : x ∈ ((enforce_constraints apps deps w).get e).flatten :=
      List.mem_flatten.mpr ⟨wv, hwv, hx⟩
    rw [enforce_get, equalizeEnv_flatten] at hfl
    have hm : x ∈ envApps apps e := (sortDesc_perm _ _).mem_iff.mp hfl
    exact (List.mem_filter.mp hm).2

/-- Witness for C2 on a concrete three-app table. -/
theorem exactly_once_assignment_witness :
    (((enforce_constraints appsSmall [] ⟨[], []⟩).get .prod).map
      (List.count "b1-prod")).sum = 1 :=
  (exactly_once_assignment appsSmall [] ⟨[], []⟩ (by decide) .prod).1 "b1-prod" (by decide)

/-- C3: after the full pipeline every environment's wave list has length
exactly `target_waves = 8`, for every input size; with zero applications in
the environment the result is 8 empty waves. -/
theorem fixed_wave_cardinality (apps : List AppRow) (deps : List DepRow) (w : Waves)
    (e : Env) :
    ((enforce_constraints apps deps w).get e).length = 8
    ∧ (envApps apps e = [] →
        (enforce_constraints apps deps w).get e = List.replicate 8 []) := by
  constructor
  · rw [enforce_get]; exact equalizeEnv_length apps e
  · intro h
    rw [enforce_get]
    simp [equalizeEnv, h]

/-- Witness for C3 with an empty application table. -/
theorem fixed_wave_cardinality_witness :
    ((enforce_constraints [] [] ⟨[], []⟩).get .nonprod).length = 8
    ∧ (enforce_constraints [] [] ⟨[], []⟩).get .nonprod = List.replicate 8 [] :=
  ⟨(fixed_wave_cardinality [] [] ⟨[], []⟩ .nonprod).1,
   (fixed_wave_cardinality [] [] ⟨[], []⟩ .nonprod).2 rfl⟩

/-- C8: the final assignment returned by `enforce_constraints` is independent
of the incoming wave assignment (hence of the community partition and of all
repair and sanitize moves): the Equalizer rebuilds every environment's waves
solely from the application table. -/
theorem final_assignment_independent_of_initial_waves
    (apps : List AppRow) (deps : List DepRow) (w1 w2 : Waves) :
    enforce_constraints apps deps w1 = enforce_constraints apps deps w2 := by
  unfold enforce_constraints
  unfold equalize_waves
  rfl

/-- One base application with a `nonprod` and a `prod` instance. -/
def appsOneBase : List AppRow := [⟨"a1-nonprod", "a1", 5⟩, ⟨"a1-prod", "a1", 5⟩]

/-- Both instances initially placed in wave 0 of their 8-wave environments. -/
def wavesBothFirst : Waves :=
  ⟨[["a1-nonprod"], [], [], [], [], [], [], []],
   [["a1-prod"], [], [], [], [], [], [], []]⟩

/-- C4: evaluating the sequencing repair rule (enforce_constraints rule 1) on
the scenario of one base app with both instances in wave 0.  Because the rule
filters instances with `endswith('prod')` without the dash, the nonprod
instance is treated as a prod instance too: after one application of the rule
the prod wave list at index 1 holds both `a1-prod` and the nonprod id
`a1-nonprod`, while `a1-nonprod` also still sits in nonprod wave 0 — the rule
does not move only the prod instances. -/
theorem sequencing_rule_injects_nonprod_into_prod_waves :
    ((baseGroups appsOneBase).foldl (rule1Step 8 (wim wavesBothFirst))
        (wavesBothFirst, false)).1.prod.getD 1 [] = ["a1-nonprod", "a1-prod"]
    ∧ "a1-nonprod" ∈ ((baseGroups appsOneBase).foldl (rule1Step 8 (wim wavesBothFirst))
        (wavesBothFirst, false)).1.nonprod.getD 0 []
    ∧ "a1-nonprod" ∈ envApps appsOneBase .nonprod := by decide

/-- C6: the Validator is a pure inspection function; calling it twice on the
same assignment, dependency table and application table yields identical
issue lists and identical stats lists, and (being a pure function of its
arguments in this embedding of the mutation-free source) it cannot modify
the wave assignment. -/
theorem validator_idempotent (apps : List AppRow) (deps : List DepRow) (w : Waves)
    (name : String) :
    (validate_waves apps deps w name).1 = (validate_waves apps deps w name).1
    ∧ (validate_waves apps deps w name).2 = (validate_waves apps deps w name).2 :=
  ⟨rfl, rfl⟩

theorem depCheckRow_of_missing {m : List (String × Env × Nat)} {r : DepRow}
    (h : wimGet m r.source = none ∨ wimGet m r.target = none)
    (apps : List AppRow) (name : String) : depCheckRow apps m name r = [] := by
  rcases h with hs | ht
  · cases hw : wimGet m r.target <;> simp [depCheckRow, hs, hw]
  · cases hw : wimGet m r.source <;> simp [depCheckRow, hw, ht]

theorem rule34Step_of_missing {m : List (String × Env × Nat)} {r : DepRow}
    (h : wimGet m r.source = none ∨ wimGet m r.target = none)
    (apps : List AppRow) (target : Nat) (acc : Waves × Bool) :
    rule34Step apps target m acc r = acc := by
  rcases h with hs | ht
  · cases hw : wimGet m r.target <;> simp [rule34Step, hs, hw]
  · cases hw : wimGet m r.source <;> simp [rule34Step, hw, ht]

/-- C7: a dependency edge whose source or target id is absent from the wave
index map of the current assignment is silently skipped: removing it changes
neither the Validator's output nor the dependency-rule fold of the Repair
Engine's pass. -/
theorem missing_edge_silently_skipped (apps : List AppRow) (name : String)
    (target : Nat) (w : Waves) (es1 es2 : List DepRow) (r : DepRow)
    (h : wimGet (wim w) r.source = none ∨ wimGet (wim w) r.target = none) :
    validate_waves apps (es1 ++ r :: es2) w name
      = validate_waves apps (es1 ++ es2) w name
    ∧ ∀ acc : Waves × Bool,
        ((es1 ++ r :: es2).filter (fun d => d.source_type == "application")).foldl
            (rule34Step apps target (wim w)) acc
          = ((es1 ++ es2).filter (fun d => d.source_type == "application")).foldl
            (rule34Step apps target (wim w)) acc := by
  constructor
  · have hseg : depIssuesOf apps (es1 ++ r :: es2) (wim w) name
        = depIssuesOf apps (es1 ++ es2) (wim w) name := by
      unfold depIssuesOf
      rw [List.filter_append, List.filter_append, List.filter_cons]
      by_cases hp : (r.source_type == "application") = true
      · rw [if_pos hp, List.flatMap_append, List.flatMap_append, List.flatMap_cons,
          depCheckRow_of_missing h]
        simp
      · rw [if_neg hp]
    unfold validate_waves
    rw [hseg]
  · intro acc
    rw [List.filter_append, List.filter_append, List.filter_cons]
    by_cases hp : (r.source_type == "application") = true
    · rw [if_pos hp, List.foldl_append, List.foldl_append, List.foldl_cons,
        rule34Step_of_missing h]
    · rw [if_neg hp]

/-- A dependency edge whose source id appears in no wave. -/
def ghostEdge : DepRow := ⟨"ghost-prod", "b1-prod", "application", 9⟩

/-- Witness for C7: dropping the ghost edge changes nothing concretely. -/
theorem missing_edge_silently_skipped_witness :
    validate_waves appsSmall ([] ++ ghostEdge :: []) wavesBothFirst "louvain"
      = validate_waves appsSmall ([] ++ []) wavesBothFirst "louvain" :=
  (missing_edge_silently_skipped appsSmall "louvain" 8 wavesBothFirst [] [] ghostEdge
    (Or.inl (by decide))).1

/-- Discriminator for the two sequencing issue kinds of the Validator. -/
def Issue.seqKind : Issue → Bool
  | .nonprod_not_before_prod .. => true
  | .nonprod_production_gap_too_small .. => true
  | _ => false

theorem seqKind_false_of_mem_countIssuesOf {x : Issue} {w : Waves} {name : String}
    (h : x ∈ countIssuesOf w name) : x.seqKind = false := by
  simp only [countIssuesOf, List.mem_filterMap] at h
  obtain ⟨e, -, hf⟩ := h
  split at hf
  · injection hf with h'
    subst h'
    rfl
  · cases hf

theorem seqKind_false_of_mem_sizeIssuesOf {x : Issue} {w : Waves} {name : String}
    (h : x ∈ sizeIssuesOf w name) : x.seqKind = false := by
  simp only [sizeIssuesOf, List.mem_flatMap, List.mem_filterMap] at h
  obtain ⟨e, -, p, -, hf⟩ := h
  split at hf
  · injection hf with h'
    subst h'
    rfl
  · cases hf

theorem seqKind_false_of_mem_exclIssuesOf {x : Issue} {w : Waves} {name : String}
    (h : x ∈ exclIssuesOf w name) : x.seqKind = false := by
  simp only [exclIssuesOf, List.mem_flatMap, List.mem_filterMap] at h
  obtain ⟨e, -, p, -, a, -, hf⟩ := h
  split at hf
  · injection hf with h'
    subst h'
    rfl
  · cases hf

theorem seqKind_false_of_mem_depCheckRow {apps : List AppRow}
    {m : List (String × Env × Nat)} {name : String} {r : DepRow} {x : Issue}
    (h : x ∈ depCheckRow apps m name r) : x.seqKind = false := by
  unfold depCheckRow at h
  split at h
  · split at h
    · cases h
    · split_ifs at h <;>
        simp only [List.mem_append, List.mem_singleton, List.not_mem_nil,
          or_false, false_or] at h <;>
        rcases h with rfl | rfl <;> rfl
  · cases h

theorem seqKind_false_of_mem_missionCheckEnv {apps : List AppRow} {name : String}
    {e : Env} {wl : List (List String)} {x : Issue}
    (h : x ∈ missionCheckEnv apps name e wl) : x.seqKind = false := by
  simp only [missionCheckEnv, List.mem_flatMap, List.mem_filterMap] at h
  obtain ⟨p, -, a, -, hf⟩ := h
  split at hf
  · cases hf
  · split at hf
    · injection hf with h'
      subst h'
      rfl
    · cases hf

theorem mem_validate_iff_mem_seq {apps : List AppRow} {deps : List DepRow} {w : Waves}
    {name : String} {x : Issue} (hx : x.seqKind = true) :
    x ∈ (validate_waves apps deps w name).1 ↔ x ∈ seqIssuesOf apps (wim w) name := by
  have hval : (validate_waves apps deps w name).1
      = countIssuesOf w name ++ sizeIssuesOf w name ++ exclIssuesOf w name
        ++ seqIssuesOf apps (wim w) name ++ depIssuesOf apps deps (wim w) name
        ++ missionIssuesOf apps name w := rfl
  rw [hval]
  simp only [List.mem_append]
  constructor
  · rintro (((((h | h) | h) | h) | h) | h)
    · exact absurd (seqKind_false_of_mem_countIssuesOf h) (by simp [hx])
    · exact absurd (seqKind_false_of_mem_sizeIssuesOf h) (by simp [hx])
    · exact absurd (seqKind_false_of_mem_exclIssuesOf h) (by simp [hx])
    · exact h
    · simp only [depIssuesOf, List.mem_flatMap] at h
      obtain ⟨r, -, hr⟩ := h
      exact absurd (seqKind_false_of_mem_depCheckRow hr) (by simp [hx])
    · simp only [missionIssuesOf, List.mem_flatMap] at h
      obtain ⟨e, -, he⟩ := h
      exact absurd (seqKind_false_of_mem_missionCheckEnv he) (by simp [hx])
  · intro h
    exact Or.inl (Or.inl (Or.inr h))

theorem seqCheck_order_iff_gap (m : List (String × Env × Nat)) (name base : String)
    (bi : String × List String) :
    (∃ npw pw, Issue.nonprod_not_before_prod name base npw pw ∈ seqCheck m name bi)
    ↔ (∃ g, Issue.nonprod_production_gap_too_small name base g ∈ seqCheck m name bi) := by
  simp only [seqCheck]
  split_ifs with hg hc1 hc2 hc2'
  · constructor
    · rintro ⟨npw, pw, h⟩
      rcases List.mem_append.mp h with h | h <;> rw [List.mem_singleton] at h
      · injection h with h1 h2 h3 h4
        subst h2
        exact ⟨_, List.mem_append.mpr (Or.inr (List.mem_singleton.mpr rfl))⟩
      · exact absurd h (by simp)
    · rintro ⟨g, h⟩
      rcases List.mem_append.mp h with h | h <;> rw [List.mem_singleton] at h
      · exact absurd h (by simp)
      · injection h with h1 h2 h3
        subst h2
        exact ⟨_, _, List.mem_append.mpr (Or.inl (List.mem_singleton.mpr rfl))⟩
  · omega
  · omega
  · simp
  · simp

/-- C10: in one run of the Validator, for every base application a
`nonprod_not_before_prod` issue is emitted for that base iff a
`nonprod_production_gap_too_small` issue is emitted for it (the conditions
`p_idx <= np_idx` and `p_idx - np_idx < 1` coincide over the integers). -/
theorem order_issue_iff_gap_issue (apps : List AppRow) (deps : List DepRow)
    (w : Waves) (name base : String) :
    (∃ npw pw, Issue.nonprod_not_before_prod name base npw pw
        ∈ (validate_waves apps deps w name).1)
    ↔ ∃ g, Issue.nonprod_production_gap_too_small name base g
        ∈ (validate_waves apps deps w name).1 := by
  constructor
  · rintro ⟨npw, pw, hm⟩
    rw [mem_validate_iff_mem_seq
      (rfl : (Issue.nonprod_not_before_prod name base npw pw).seqKind = true)] at hm
    simp only [seqIssuesOf, List.mem_flatMap] at hm
    obtain ⟨bi, hbi, hmem⟩ := hm
    obtain ⟨g, hg⟩ := (seqCheck_order_iff_gap (wim w) name base bi).mp ⟨npw, pw, hmem⟩
    refine ⟨g, ?_⟩
    rw [mem_validate_iff_mem_seq
      (rfl : (Issue.nonprod_production_gap_too_small name base g).seqKind = true)]
    exact List.mem_flatMap.mpr ⟨bi, hbi, hg⟩
  · rintro ⟨g, hm⟩
    rw [mem_validate_iff_mem_seq
      (rfl : (Issue.nonprod_production_gap_too_small name base g).seqKind = true)] at hm
    simp only [seqIssuesOf, List.mem_flatMap] at hm
    obtain ⟨bi, hbi, hmem⟩ := hm
    obtain ⟨npw, pw, ho⟩ := (seqCheck_order_iff_gap (wim w) name base bi).mpr ⟨g, hmem⟩
    refine ⟨npw, pw, ?_⟩
    rw [mem_validate_iff_mem_seq
      (rfl : (Issue.nonprod_not_before_prod name base npw pw).seqKind = true)]
    exact List.mem_flatMap.mpr ⟨bi, hbi, ho⟩

theorem bcpOf_isSome_of_mem {apps : List AppRow} {a : String}
    (h : a ∈ apps.map (fun r => r.app_instance_id)) :
    ∃ q, bcpOf apps a = some q := by
  obtain ⟨r, hr, rfl⟩ := List.mem_map.mp h
  have hsome : (apps.find? (fun x => x.app_instance_id == r.app_instance_id)).isSome := by
    rw [List.find?_isSome]
    exact ⟨r, hr, by simp⟩
  obtain ⟨x, hx⟩ := Option.isSome_iff_exists.mp hsome
  exact ⟨x.BCP_score, by rw [bcpOf, hx]; rfl⟩

theorem sizesList_head_pos {total target : Nat} (ht : 0 < total) (htg : 0 < target)
    {s0 : Nat} {rest : List Nat} (h : sizesList total target = s0 :: rest) :
    1 ≤ s0 := by
  obtain ⟨n, rfl⟩ := Nat.exists_eq_succ_of_ne_zero (Nat.pos_iff_ne_zero.mp htg)
  rw [sizesList, List.range_succ_eq_map, List.map_cons] at h
  injection h with h1 h2
  subst h1
  simp only [Nat.succ_eq_add_one] at *
  show 1 ≤ if 0 < total % (n + 1) then total / (n + 1) + 1 else total / (n + 1)
  have hdm := Nat.div_add_mod total (n + 1)
  set b := total / (n + 1) with hbdef
  set r := total % (n + 1) with hrdef
  clear_value b r
  clear hbdef hrdef
  split_ifs with hrem
  · omega
  · rcases Nat.eq_zero_or_pos b with hz | hp
    · rw [hz, Nat.mul_zero] at hdm
      omega
    · omega

theorem mem_missionCheckEnv_head {apps : List AppRow} {name : String} {e : Env}
    {w0 : List String} {rest : List (List String)} {a : String} {q : Rat}
    (ha : a ∈ w0) (hb : bcpOf apps a = some q) (hq : 9 ≤ q) :
    Issue.mission_critical_edge_wave name e 0 a
      ∈ missionCheckEnv apps name e (w0 :: rest) := by
  unfold missionCheckEnv
  refine List.mem_flatMap.mpr ⟨(0, w0), ?_, ?_⟩
  · rw [List.enum_cons]
    exact List.mem_cons_self _ _
  · refine List.mem_filterMap.mpr ⟨a, ha, ?_⟩
    simp only [hb]
    simp [hq]

/-- C9: for every environment containing at least one application with
BCP score ≥ 9, the final validation report after the full pipeline contains a
`mission_critical_edge_wave` issue for that environment at wave 0: the
Equalizer's descending sort puts a maximal-BCP application at the head of
wave 0 and the Validator's first-or-last-wave check flags it. -/
theorem mission_critical_always_flagged (apps : List AppRow) (deps : List DepRow)
    (w : Waves) (name : String) (e : Env)
    (h : ∃ a ∈ envApps apps e, ∃ q, bcpOf apps a = some q ∧ 9 ≤ q) :
    ∃ app, Issue.mission_critical_edge_wave name e 0 app
      ∈ (validate_waves apps deps (enforce_constraints apps deps w) name).1 := by
  obtain ⟨a, ha, q, hb, hq⟩ := h
  have htot : (envApps apps e).length ≠ 0 := by
    intro h0
    rw [List.length_eq_zero] at h0
    rw [h0] at ha
    cases ha
  have hsl : (sortDesc (bcpKey apps) (envApps apps e)).length = (envApps apps e).length :=
    (sortDesc_perm _ _).length_eq
  obtain ⟨h0, t, hcons⟩ :
      ∃ h0 t, sortDesc (bcpKey apps) (envApps apps e) = h0 :: t := by
    cases hc : sortDesc (bcpKey apps) (envApps apps e) with
    | nil =>
      rw [hc] at hsl
      simp at hsl
      exact absurd hsl.symm htot
    | cons x xs => exact ⟨x, xs, rfl⟩
  have hmemh : h0 ∈ envApps apps e := by
    refine (sortDesc_perm (bcpKey apps) (envApps apps e)).mem_iff.mp ?_
    rw [hcons]
    exact List.mem_cons_self _ _
  have hha : a ∈ sortDesc (bcpKey apps) (envApps apps e) :=
    (sortDesc_perm (bcpKey apps) (envApps apps e)).mem_iff.mpr ha
  have hkey : bcpKey apps a ≤ bcpKey apps h0 := by
    rw [hcons] at hha
    rcases List.mem_cons.mp hha with rfl | hmem
    · exact le_rfl
    · have hp := sortDesc_sorted (bcpKey apps) (envApps apps e)
      rw [hcons] at hp
      exact List.rel_of_pairwise_cons hp hmem
  have h9 : (9 : Rat) ≤ bcpKey apps h0 := by
    refine le_trans ?_ hkey
    rw [bcpKey, hb]
    exact hq
  obtain ⟨qh, hbh⟩ : ∃ qh, bcpOf apps h0 = some qh :=
    bcpOf_isSome_of_mem (List.mem_filter.mp hmemh).1
  have h9h : (9 : Rat) ≤ qh := by
    rw [bcpKey, hbh] at h9
    simpa using h9
  cases hsz : sizesList (envApps apps e).length 8 with
  | nil =>
    have hl := sizesList_length (envApps apps e).length 8
    rw [hsz] at hl
    simp at hl
  | cons s0 srest =>
    have hs0 : 1 ≤ s0 := sizesList_head_pos (by omega) (by norm_num) hsz
    have hw0 : equalizeEnv apps 8 e
        = (sortDesc (bcpKey apps) (envApps apps e)).take s0
          :: takeSlices srest ((sortDesc (bcpKey apps) (envApps apps e)).drop s0) := by
      unfold equalizeEnv
      rw [if_neg htot, hsz]
      rfl
    have hmem0 : h0 ∈ (sortDesc (bcpKey apps) (envApps apps e)).take s0 := by
      rw [hcons]
      obtain ⟨k, rfl⟩ : ∃ k, s0 = k + 1 := ⟨s0 - 1, by omega⟩
      rw [List.take_succ_cons]
      exact List.mem_cons_self _ _
    refine ⟨h0, ?_⟩
    have hval : (validate_waves apps deps (enforce_constraints apps deps w) name).1
        = countIssuesOf (enforce_constraints apps deps w) name
            ++ sizeIssuesOf (enforce_constraints apps deps w) name
            ++ exclIssuesOf (enforce_constraints apps deps w) name
            ++ seqIssuesOf apps (wim (enforce_constraints apps deps w)) name
            ++ depIssuesOf apps deps (wim (enforce_constraints apps deps w)) name
            ++ missionIssuesOf apps name (enforce_constraints apps deps w) := rfl
    rw [hval]
    refine List.mem_append_right _ ?_
    unfold missionIssuesOf
    refine List.mem_flatMap.mpr ⟨e, ?_, ?_⟩
    · cases e <;> simp
    · rw [enforce_get, hw0]
      exact mem_missionCheckEnv_head hmem0 hbh h9h

/-- Witness for C9 on the three-app table whose top instance has BCP 9. -/
theorem mission_critical_always_flagged_witness :
    ∃ app, Issue.mission_critical_edge_wave "louvain" .prod 0 app
      ∈ (validate_waves appsSmall []
          (enforce_constraints appsSmall [] ⟨[], []⟩) "louvain").1 :=
  mission_critical_always_flagged appsSmall [] ⟨[], []⟩ "louvain" .prod
    ⟨"b1-prod", by decide, 9, by decide, by decide⟩

/-! ### Rule 2 (mission-critical placement) analysis -/

theorem middleIdx_bounds {N : Nat} (hN : 2 < N) :
    1 ≤ middleIdx N ∧ middleIdx N ≤ N - 2 := by
  unfold middleIdx
  omega

theorem mcStep_length (apps : List AppRow) (N i middle : Nat)
    (acc : List (List String) × Bool) (x : String) :
    ((mcStep apps N i middle acc x).1).length = acc.1.length := by
  unfold mcStep
  split
  · rfl
  · split_ifs with h1 h2
    · simp [modNth_length]
    · rfl
    · rfl

theorem mcStep_getD_other {apps : List AppRow} {N i middle : Nat}
    {acc : List (List String) × Bool} {x : String} {k : Nat}
    (hki : k ≠ i) (hkm : k ≠ middle) :
    (mcStep apps N i middle acc x).1.getD k [] = acc.1.getD k [] := by
  unfold mcStep
  split
  · rfl
  · split_ifs with h1 h2
    · show (modNth _ middle (modNth _ i acc.1)).getD k [] = _
      rw [getD_modNth_ne _ hkm, getD_modNth_ne _ hki]
    · rfl
    · rfl

theorem mcStep_middle_mem {apps : List AppRow} {N i middle : Nat}
    {acc : List (List String) × Bool} {x a : String}
    (ha : a ∈ acc.1.getD middle []) :
    a ∈ (mcStep apps N i middle acc x).1.getD middle [] := by
  unfold mcStep
  split
  · exact ha
  · split_ifs with h1 h2
    · show a ∈ (modNth _ middle (modNth _ i acc.1)).getD middle []
      by_cases hlt : middle < acc.1.length
      · rw [getD_modNth_self _ (by rwa [modNth_length])]
        by_cases him : i = middle
        · subst him
          rw [getD_modNth_self _ hlt]
          rcases eq_or_ne a x with rfl | hax
          · exact List.mem_append_right _ (List.mem_singleton.mpr rfl)
          · exact List.mem_append_left _ ((List.mem_erase_of_ne hax).mpr ha)
        · rw [getD_modNth_ne _ (fun hc => him hc.symm)]
          exact List.mem_append_left _ ha
      · exfalso
        rw [List.getD_eq_default _ _ (by omega)] at ha
        exact (List.not_mem_nil a) ha
    · exact ha
    · exact ha

theorem mcStep_count_le {apps : List AppRow} {N i middle : Nat}
    {acc : List (List String) × Bool} {x a : String} {k : Nat} (hkm : k ≠ middle) :
    List.count a ((mcStep apps N i middle acc x).1.getD k [])
      ≤ List.count a (acc.1.getD k []) := by
  unfold mcStep
  split
  · exact le_rfl
  · split_ifs with h1 h2
    · show List.count a ((modNth _ middle (modNth _ i acc.1)).getD k []) ≤ _
      rw [getD_modNth_ne _ hkm]
      by_cases hki : k = i
      · subst hki
        by_cases hlt : k < acc.1.length
        · rw [getD_modNth_self _ hlt]
          exact (List.erase_sublist _ _).count_le a
        · rw [List.getD_eq_default _ _ (by rw [modNth_length]; omega),
            List.getD_eq_default _ _ (by omega)]
      · rw [getD_modNth_ne _ hki]
    · exact le_rfl
    · exact le_rfl

theorem mcFold_length (apps : List AppRow) (N i middle : Nat) :
    ∀ (s : List String) (acc : List (List String) × Bool),
      ((s.foldl (mcStep apps N i middle) acc).1).length = acc.1.length := by
  intro s
  induction s with
  | nil => intro acc; rfl
  | cons x s ih =>
    intro acc
    rw [List.foldl_cons]
    rw [ih]
    exact mcStep_length apps N i middle acc x

theorem mcFold_getD_other {apps : List AppRow} {N i middle k : Nat}
    (hki : k ≠ i) (hkm : k ≠ middle) :
    ∀ (s : List String) (acc : List (List String) × Bool),
      ((s.foldl (mcStep apps N i middle) acc).1).getD k [] = acc.1.getD k [] := by
  intro s
  induction s with
  | nil => intro acc; rfl
  | cons x s ih =>
    intro acc
    rw [List.foldl_cons, ih]
    exact mcStep_getD_other hki hkm

theorem mcFold_count_le {apps : List AppRow} {N i middle : Nat} {a : String} {k : Nat}
    (hkm : k ≠ middle) :
    ∀ (s : List String) (acc : List (List String) × Bool),
      List.count a (((s.foldl (mcStep apps N i middle) acc).1).getD k [])
        ≤ List.count a (acc.1.getD k []) := by
  intro s
  induction s with
  | nil => intro acc; exact le_rfl
  | cons x s ih =>
    intro acc
    rw [List.foldl_cons]
    exact le_trans (ih _) (mcStep_count_le hkm)

theorem mcFold_middle_mem {apps : List AppRow} {N i middle : Nat} {a : String} :
    ∀ (s : List String) (acc : List (List String) × Bool),
      a ∈ acc.1.getD middle [] →
      a ∈ ((s.foldl (mcStep apps N i middle) acc).1).getD middle [] := by
  intro s
  induction s with
  | nil => intro acc h; exact h
  | cons x s ih =>
    intro acc h
    rw [List.foldl_cons]
    exact ih _ (mcStep_middle_mem h)

theorem mcStep_none {apps : List AppRow} {N i middle : Nat}
    {acc : List (List String) × Bool} {x : String} (hbx : bcpOf apps x = none) :
    mcStep apps N i middle acc x = acc := by
  unfold mcStep
  rw [hbx]

theorem mcStep_skip {apps : List AppRow} {N i middle : Nat}
    {acc : List (List String) × Bool} {x : String} {qx : Rat}
    (hbx : bcpOf apps x = some qx) (hc : ¬(9 ≤ qx ∧ (i = 0 ∨ i = N - 1))) :
    mcStep apps N i middle acc x = acc := by
  unfold mcStep
  simp only [hbx]
  rw [if_neg hc]

theorem mcStep_nomem {apps : List AppRow} {N i middle : Nat}
    {acc : List (List String) × Bool} {x : String} {qx : Rat}
    (hbx : bcpOf apps x = some qx) (hc : 9 ≤ qx ∧ (i = 0 ∨ i = N - 1))
    (hmem : x ∉ acc.1.getD i []) :
    mcStep apps N i middle acc x = acc := by
  unfold mcStep
  simp only [hbx]
  rw [if_pos hc, if_neg hmem]

theorem mcStep_move {apps : List AppRow} {N i middle : Nat}
    {acc : List (List String) × Bool} {x : String} {qx : Rat}
    (hbx : bcpOf apps x = some qx) (hc : 9 ≤ qx ∧ (i = 0 ∨ i = N - 1))
    (hmem : x ∈ acc.1.getD i []) :
    mcStep apps N i middle acc x
      = (modNth (fun l => l ++ [x]) middle
          (modNth (fun l => l.erase x) i acc.1), true) := by
  unfold mcStep
  simp only [hbx]
  rw [if_pos hc, if_pos hmem]

theorem mcFold_count_zero {apps : List AppRow} {N i middle : Nat} {a : String} {q : Rat}
    (ha : bcpOf apps a = some q) (hq : 9 ≤ q) (hi : i = 0 ∨ i = N - 1)
    (him : i ≠ middle) :
    ∀ (s : List String) (acc : List (List String) × Bool),
      List.count a (acc.1.getD i []) = List.count a s →
      List.count a (((s.foldl (mcStep apps N i middle) acc).1).getD i []) = 0 := by
  intro s
  induction s with
  | nil =>
    intro acc h
    simpa using h
  | cons x s ih =>
    intro acc h
    rw [List.foldl_cons]
    cases hbx : bcpOf apps x with
    | none =>
      have hxa : x ≠ a := by
        rintro rfl
        rw [ha] at hbx
        cases hbx
      rw [mcStep_none hbx]
      apply ih
      rw [h, List.count_cons_of_ne (Ne.symm hxa)]
    | some qx =>
      by_cases hc : 9 ≤ qx ∧ (i = 0 ∨ i = N - 1)
      · by_cases hmem : x ∈ acc.1.getD i []
        · rw [mcStep_move hbx hc hmem]
          apply ih
          have hlt : i < acc.1.length := by
            by_contra hge
            rw [List.getD_eq_default _ _ (by omega)] at hmem
            exact (List.not_mem_nil x) hmem
          show List.count a ((modNth _ middle (modNth _ i acc.1)).getD i []) = _
          rw [getD_modNth_ne _ him, getD_modNth_self _ hlt]
          rcases eq_or_ne x a with rfl | hxa
          · rw [List.count_erase_self, h, List.count_cons_self]
            omega
          · rw [List.count_erase_of_ne (Ne.symm hxa), h,
              List.count_cons_of_ne (Ne.symm hxa)]
        · rw [mcStep_nomem hbx hc hmem]
          apply ih
          rcases eq_or_ne x a with rfl | hxa
          · exfalso
            refine hmem (List.count_pos_iff.mp ?_)
            rw [h, List.count_cons_self]
            omega
          · rw [h, List.count_cons_of_ne (Ne.symm hxa)]
      · have hxa : x ≠ a := by
          rintro rfl
          rw [ha] at hbx
          injection hbx with he
          subst he
          exact hc ⟨hq, hi⟩
        rw [mcStep_skip hbx hc]
        apply ih
        rw [h, List.count_cons_of_ne (Ne.symm hxa)]

theorem mcFold_mem_middle {apps : List AppRow} {N i middle : Nat} {a : String}
    {q : Rat} (ha : bcpOf apps a = some q) (hq : 9 ≤ q) (hi : i = 0 ∨ i = N - 1)
    (him : i ≠ middle) :
    ∀ (s : List String) (acc : List (List String) × Bool),
      middle < acc.1.length →
      List.count a (acc.1.getD i []) = List.count a s →
      a ∈ s →
      a ∈ ((s.foldl (mcStep apps N i middle) acc).1).getD middle [] := by
  intro s
  induction s with
  | nil =>
    intro acc _ _ hmem
    cases hmem
  | cons x s ih =>
    intro acc hml h hmem
    rw [List.foldl_cons]
    rcases eq_or_ne x a with rfl | hxa
    · have hain : x ∈ acc.1.getD i [] := by
        refine List.count_pos_iff.mp ?_
        rw [h, List.count_cons_self]
        omega
      rw [mcStep_move ha ⟨hq, hi⟩ hain]
      apply mcFold_middle_mem
      show x ∈ (modNth _ middle (modNth _ i acc.1)).getD middle []
      rw [getD_modNth_self _ (by rwa [modNth_length])]
      exact List.mem_append_right _ (List.mem_singleton.mpr rfl)
    · have hmem' : a ∈ s := by
        rcases List.mem_cons.mp hmem with heq | hs
        · exact absurd heq.symm hxa
        · exact hs
      cases hbx : bcpOf apps x with
      | none =>
        rw [mcStep_none hbx]
        refine ih _ hml ?_ hmem'
        rw [h, List.count_cons_of_ne (Ne.symm hxa)]
      | some qx =>
        by_cases hc : 9 ≤ qx ∧ (i = 0 ∨ i = N - 1)
        · by_cases hxin : x ∈ acc.1.getD i []
          · rw [mcStep_move hbx hc hxin]
            have hlt : i < acc.1.length := by
              by_contra hge
              rw [List.getD_eq_default _ _ (by omega)] at hxin
              exact (List.not_mem_nil x) hxin
            refine ih _ (by rw [modNth_length, modNth_length]; exact hml) ?_ hmem'
            show List.count a ((modNth _ middle (modNth _ i acc.1)).getD i []) = _
            rw [getD_modNth_ne _ him, getD_modNth_self _ hlt,
              List.count_erase_of_ne (Ne.symm hxa), h,
              List.count_cons_of_ne (Ne.symm hxa)]
          · rw [mcStep_nomem hbx hc hxin]
            refine ih _ hml ?_ hmem'
            rw [h, List.count_cons_of_ne (Ne.symm hxa)]
        · rw [mcStep_skip hbx hc]
          refine ih _ hml ?_ hmem'
          rw [h, List.count_cons_of_ne (Ne.symm hxa)]

theorem wavesFold_length (apps : List AppRow) (N middle : Nat) :
    ∀ (js : List Nat) (acc : List (List String) × Bool),
      ((js.foldl (mcWave apps N middle) acc).1).length = acc.1.length := by
  intro js
  induction js with
  | nil => intro acc; rfl
  | cons j js ih =>
    intro acc
    rw [List.foldl_cons, ih]
    exact mcFold_length apps N j middle _ acc

theorem wavesFold_count_le {apps : List AppRow} {N middle : Nat} {a : String} {k : Nat}
    (hkm : k ≠ middle) :
    ∀ (js : List Nat) (acc : List (List String) × Bool),
      List.count a (((js.foldl (mcWave apps N middle) acc).1).getD k [])
        ≤ List.count a (acc.1.getD k []) := by
  intro js
  induction js with
  | nil => intro acc; exact le_rfl
  | cons j js ih =>
    intro acc
    rw [List.foldl_cons]
    exact le_trans (ih _) (mcFold_count_le hkm _ acc)

theorem wavesFold_getD_other {apps : List AppRow} {N middle : Nat} {k : Nat}
    (hkm : k ≠ middle) :
    ∀ (js : List Nat), (∀ j ∈ js, j ≠ k) →
      ∀ (acc : List (List String) × Bool),
        ((js.foldl (mcWave apps N middle) acc).1).getD k [] = acc.1.getD k [] := by
  intro js
  induction js with
  | nil => intro _ acc; rfl
  | cons j js ih =>
    intro hjs acc
    rw [List.foldl_cons, ih (fun x hx => hjs x (List.mem_cons_of_mem j hx))]
    exact mcFold_getD_other (fun hc => hjs j (List.mem_cons_self j js) hc.symm) hkm _ acc

theorem wavesFold_middle_mem {apps : List AppRow} {N middle : Nat} {a : String} :
    ∀ (js : List Nat) (acc : List (List String) × Bool),
      a ∈ acc.1.getD middle [] →
      a ∈ ((js.foldl (mcWave apps N middle) acc).1).getD middle [] := by
  intro js
  induction js with
  | nil => intro acc h; exact h
  | cons j js ih =>
    intro acc h
    rw [List.foldl_cons]
    exact ih _ (mcFold_middle_mem _ _ h)

/-- C5: in the mission-critical placement rule, on an environment with more
than 2 waves, an application with BCP score ≥ 9 is absent from the first and
last waves after the rule runs; if it sat in the first or the last wave it is
now a member of the middle wave of index
`(floor(0.25 N) + ceil(0.75 N) - 1) // 2`, and for `N = 8` that index is 3. -/
theorem mission_critical_relocation (apps : List AppRow) (wl : List (List String))
    (ch : Bool) (a : String) (q : Rat) (hN : 2 < wl.length)
    (ha : bcpOf apps a = some q) (hq : 9 ≤ q) :
    (a ∉ (rule2Env apps wl ch).1.getD 0 []
      ∧ a ∉ (rule2Env apps wl ch).1.getD (wl.length - 1) [])
    ∧ ((a ∈ wl.getD 0 [] ∨ a ∈ wl.getD (wl.length - 1) []) →
        a ∈ (rule2Env apps wl ch).1.getD (middleIdx wl.length) [])
    ∧ middleIdx 8 = 3 := by
  obtain ⟨hm1, hm2⟩ := middleIdx_bounds hN
  have h0m : (0 : Nat) ≠ middleIdx wl.length := by omega
  have hlm : wl.length - 1 ≠ middleIdx wl.length := by omega
  have hfold : rule2Env apps wl ch
      = (List.range wl.length).foldl
          (mcWave apps wl.length (middleIdx wl.length)) (wl, ch) := by
    simp only [rule2Env]
    rw [if_neg (by omega)]
  have hsplit : List.range wl.length
      = List.range (wl.length - 1) ++ [wl.length - 1] := by
    have hlen : wl.length = (wl.length - 1) + 1 := by omega
    conv_lhs => rw [hlen]
    rw [List.range_succ]
  have hsplit2 : List.range (wl.length - 1)
      = 0 :: (List.range (wl.length - 2)).map Nat.succ := by
    have hlen : wl.length - 1 = (wl.length - 2) + 1 := by omega
    rw [hlen, List.range_succ_eq_map]
  -- the state after processing wave indices 0 .. length-2
  have hA :
      (List.range (wl.length - 1)).foldl
          (mcWave apps wl.length (middleIdx wl.length)) (wl, ch)
        = ((List.range (wl.length - 2)).map Nat.succ).foldl
            (mcWave apps wl.length (middleIdx wl.length))
            (mcWave apps wl.length (middleIdx wl.length) (wl, ch) 0) := by
    rw [hsplit2, List.foldl_cons]
  have hB0count : List.count a
      ((mcWave apps wl.length (middleIdx wl.length) (wl, ch) 0).1.getD 0 []) = 0 :=
    mcFold_count_zero ha hq (Or.inl rfl) h0m _ (wl, ch) rfl
  have hAcount : List.count a
      (((List.range (wl.length - 1)).foldl
          (mcWave apps wl.length (middleIdx wl.length)) (wl, ch)).1.getD 0 []) = 0 := by
    rw [hA]
    have hle := @wavesFold_count_le apps wl.length (middleIdx wl.length) a 0 h0m
      ((List.range (wl.length - 2)).map Nat.succ)
      (mcWave apps wl.length (middleIdx wl.length) (wl, ch) 0)
    omega
  have hAlast :
      (((List.range (wl.length - 1)).foldl
          (mcWave apps wl.length (middleIdx wl.length)) (wl, ch)).1).getD
            (wl.length - 1) []
        = wl.getD (wl.length - 1) [] :=
    wavesFold_getD_other hlm _
      (fun j hj => by
        have := List.mem_range.mp hj
        omega) (wl, ch)
  have hAlen :
      (((List.range (wl.length - 1)).foldl
          (mcWave apps wl.length (middleIdx wl.length)) (wl, ch)).1).length
        = wl.length :=
    wavesFold_length apps wl.length (middleIdx wl.length) _ (wl, ch)
  rw [hfold, hsplit, List.foldl_append, List.foldl_cons, List.foldl_nil]
  refine ⟨⟨?_, ?_⟩, ?_, by decide⟩
  · -- not in wave 0
    rw [← List.count_eq_zero]
    have hle : List.count a
        (((mcWave apps wl.length (middleIdx wl.length)
            ((List.range (wl.length - 1)).foldl
              (mcWave apps wl.length (middleIdx wl.length)) (wl, ch))
            (wl.length - 1)).1).getD 0 [])
          ≤ List.count a
            ((((List.range (wl.length - 1)).foldl
                (mcWave apps wl.length (middleIdx wl.length)) (wl, ch)).1).getD 0 []) :=
      @mcFold_count_le apps wl.length (wl.length - 1) (middleIdx wl.length) a 0 h0m _ _
    omega
  · -- not in the last wave
    rw [← List.count_eq_zero]
    exact mcFold_count_zero ha hq (Or.inr rfl) hlm _ _ rfl
  · -- membership in the middle wave
    rintro (hin | hin)
    · -- was in wave 0: moved during the processing of index 0
      have hBmid : a ∈ (mcWave apps wl.length (middleIdx wl.length) (wl, ch) 0).1.getD
          (middleIdx wl.length) [] :=
        mcFold_mem_middle ha hq (Or.inl rfl) h0m _ (wl, ch)
          (by show middleIdx wl.length < wl.length; omega) rfl hin
      have hAmid : a ∈ (((List.range (wl.length - 1)).foldl
          (mcWave apps wl.length (middleIdx wl.length)) (wl, ch)).1).getD
            (middleIdx wl.length) [] := by
        rw [hA]
        exact wavesFold_middle_mem _ _ hBmid
      exact mcFold_middle_mem _ _ hAmid
    · -- was in the last wave: moved during the processing of index length-1
      refine mcFold_mem_middle ha hq (Or.inr rfl) hlm _ _ ?_ rfl ?_
      · rw [hAlen]
        omega
      · rw [hAlast]
        exact hin

/-- An 8-wave environment with the BCP-9 app `b1-prod` placed in wave 0. -/
def wavesEight : List (List String) :=
  [["b1-prod", "b2-prod"], [], [], [], [], [], [], ["b3-prod"]]

/-- Witness for C5: the BCP-9 app leaves wave 0 and lands in wave 3. -/
theorem mission_critical_relocation_witness :
    ("b1-prod" ∉ (rule2Env appsSmall wavesEight false).1.getD 0 []
      ∧ "b1-prod" ∉ (rule2Env appsSmall wavesEight false).1.getD
          (wavesEight.length - 1) [])
    ∧ "b1-prod" ∈ (rule2Env appsSmall wavesEight false).1.getD
        (middleIdx wavesEight.length) [] :=
  let T := mission_critical_relocation appsSmall wavesEight false "b1-prod" 9
    (by decide) (by decide) (by decide)
  ⟨T.1, T.2.1 (Or.inl (by decide))⟩
